import Mathlib

/-!
# Verification of the mx-scrape day-window assembly pipeline

Shallow embedding of the schedule-assembly code of the repository:

* `epg_scraper.py` — midnight-crossing split (`split_schedule_at_midnight`),
  stitching of yesterday/today/tomorrow fetches, end-time synthesis
  (`calculate_end_times`) and conditional file emission (`main`);
* `scraper.py` — sort-then-chain end-time synthesis tail of `parse_schedule`
  and the wall-clock window filter `filter_24hour_schedule`;
* `main.py` — the absolute-time (XMLTV) interval-overlap day filter of
  `extract_schedule`.

Wall-clock times stay strings, exactly as in the code; absolute instants of
the XMLTV variant are modelled as integers (minutes since an epoch).
-/

/-- One broadcast entry, with the exact fields built by the scrapers. -/
structure RawProgram where
  show_name : String
  show_logo : String
  show_category : String
  start_time : String
  end_time : String
  episode_description : String
deriving DecidableEq, Repr, Inhabited

/-- Digits to a natural number, most significant first. -/
def digitsToNat (cs : List Char) : Nat :=
  cs.foldl (fun acc c => acc * 10 + (c.toNat - ('0').toNat)) 0

/-- Python `int(s)` on a string: optional surrounding whitespace, an optional
sign, then at least one digit; anything else raises (here: `none`). -/
def pyParseInt (s : List Char) : Option Int :=
  let cs := (s.dropWhile Char.isWhitespace).reverse.dropWhile Char.isWhitespace |>.reverse
  match cs with
  | [] => none
  | '-' :: rest =>
      if rest.isEmpty || !rest.all Char.isDigit then none
      else some (-(digitsToNat rest : Int))
  | '+' :: rest =>
      if rest.isEmpty || !rest.all Char.isDigit then none
      else some (digitsToNat rest : Int)
  | _ =>
      if cs.all Char.isDigit then some (digitsToNat cs : Int) else none

/-- The characters of a start time before the first colon. -/
def upToColon : List Char → List Char
  | [] => []
  | c :: rest => if c = ':' then [] else c :: upToColon rest

/-- `int(time_str.split(':')[0])` from `split_schedule_at_midnight` and
`filter_24hour_schedule`: the hour field of a wall-clock time string. -/
def parseHour (s : String) : Option Int :=
  pyParseInt (upToColon s.toList)

/-- The rollover test of the loop in `split_schedule_at_midnight`: both hours
parse and the current hour is smaller than the previous one; a parse failure
(`except: continue`) means no rollover is declared at this pair. -/
def hourDrop (prev curr : RawProgram) : Bool :=
  match parseHour prev.start_time, parseHour curr.start_time with
  | some prev_hour, some curr_hour => decide (curr_hour < prev_hour)
  | _, _ => false

/-- `hourDrop` as a proposition: the hour of `curr` is strictly below the hour
of `prev`, both hours being parseable. -/
def hourLt (prev curr : RawProgram) : Prop :=
  ∃ prev_hour curr_hour,
    parseHour prev.start_time = some prev_hour ∧
    parseHour curr.start_time = some curr_hour ∧
    curr_hour < prev_hour

/-- The loop of `split_schedule_at_midnight`: starting at index `i` with
predecessor `prev`, the index of the first entry whose hour drops below its
predecessor's hour; when no drop is found the result is the index one past
the end (`split_index`'s initial value `len(schedule_list)`). -/
def findRollover : List RawProgram → RawProgram → Nat → Nat
  | [], _, i => i
  | curr :: rest, prev, i =>
      if hourDrop prev curr then i else findRollover rest curr (i + 1)

/-- `split_schedule_at_midnight` of `epg_scraper.py`: slice the list at the
first detected hour rollover. -/
def split_schedule_at_midnight (schedule_list : List RawProgram) :
    List RawProgram × List RawProgram :=
  match schedule_list with
  | [] => ([], [])
  | h :: t =>
      let split_index := findRollover t h 1
      ((h :: t).take split_index, (h :: t).drop split_index)

/-- `calculate_end_times` of `epg_scraper.py`: each entry's end time becomes
the next entry's start time; the last entry takes the anchor's start time, or
`""` when no anchor is given. -/
def calculate_end_times (current_day_list : List RawProgram)
    (next_day_first_item : Option RawProgram) : List RawProgram :=
  match current_day_list with
  | [] => []
  | p :: rest =>
      match rest with
      | [] =>
          [{ p with end_time :=
              match next_day_first_item with
              | some q => q.start_time
              | none => "" }]
      | q :: _ =>
          { p with end_time := q.start_time } :: calculate_end_times rest next_day_first_item

/-- The stitching and end-time steps of `main` in `epg_scraper.py` for one
channel: split the three relative-day lists, stitch the calendar days, and
synthesize end times (today is anchored on tomorrow's first show). -/
def assemble (list_y list_t list_tm : List RawProgram) :
    List RawProgram × List RawProgram :=
  let yest_post_midnight := (split_schedule_at_midnight list_y).2
  let today_parts := split_schedule_at_midnight list_t
  let tom_day_part := (split_schedule_at_midnight list_tm).1
  let full_today_schedule := yest_post_midnight ++ today_parts.1
  let full_tomorrow_schedule := today_parts.2 ++ tom_day_part
  let first_show_tm := full_tomorrow_schedule.head?
  (calculate_end_times full_today_schedule first_show_tm,
   calculate_end_times full_tomorrow_schedule none)

/-- The JSON document shape written by `save_json` / the scrapers. -/
structure ChannelSchedule where
  channel : String
  date : String
  schedule : List RawProgram
deriving DecidableEq, Repr

/-- The `if full_today_schedule: save_json(...)` guard of `main`: a day's file
exists exactly when its schedule list is non-empty. -/
def emitDay (channel_name date_str : String) (schedule_data : List RawProgram) :
    Option ChannelSchedule :=
  if schedule_data.isEmpty then none
  else some ⟨channel_name, date_str, schedule_data⟩

/-- Per-channel output of `main` in `epg_scraper.py`: the today and tomorrow
files, each present only when its assembled schedule is non-empty. -/
def mainOutputs (channel_name date_today date_tomorrow : String)
    (list_y list_t list_tm : List RawProgram) :
    Option ChannelSchedule × Option ChannelSchedule :=
  let r := assemble list_y list_t list_tm
  (emitDay channel_name date_today r.1, emitDay channel_name date_tomorrow r.2)

/-- Start-time comparison used by `programs.sort(key=lambda x: x['start_time'])`
in `parse_schedule` of `scraper.py`. -/
def startLE (a b : RawProgram) : Prop := a.start_time ≤ b.start_time

instance : DecidableRel startLE := fun a b =>
  inferInstanceAs (Decidable (a.start_time ≤ b.start_time))

instance : IsTotal RawProgram startLE :=
  ⟨fun a b => le_total a.start_time b.start_time⟩

instance : IsTrans RawProgram startLE :=
  ⟨fun _ _ _ h h' => le_trans h h'⟩

/-- The `programs.sort(key=lambda x: x['start_time'])` step of
`parse_schedule`. Python's sort is stable; `List.insertionSort` is the stable
sort on lists, so the two agree on every input. -/
def sortByStart (programs : List RawProgram) : List RawProgram :=
  programs.insertionSort startLE

/-- The end-time loop of `parse_schedule` in `scraper.py`: chain end times,
with the fixed sentinel `"23:59"` for the last program. -/
def scraperEndTimes (programs : List RawProgram) : List RawProgram :=
  match programs with
  | [] => []
  | p :: rest =>
      match rest with
      | [] => [{ p with end_time := "23:59" }]
      | q :: _ => { p with end_time := q.start_time } :: scraperEndTimes rest

/-- The pure tail of `parse_schedule` in `scraper.py`: sort the extracted
programs by start time, then fill in end times. -/
def parse_schedule_post (programs : List RawProgram) : List RawProgram :=
  scraperEndTimes (sortByStart programs)

/-- `filter_24hour_schedule` of `scraper.py`: keep programs whose start hour
parses and lies in `0..23`; unparseable entries are skipped. -/
def filter_24hour_schedule (programs : List RawProgram) : List RawProgram :=
  match programs with
  | [] => []
  | program :: rest =>
      match parseHour program.start_time with
      | some start_hour =>
          if 0 ≤ start_hour ∧ start_hour ≤ 23 then
            program :: filter_24hour_schedule rest
          else filter_24hour_schedule rest
      | none => filter_24hour_schedule rest

/-- The retention test of `filter_24hour_schedule` as a Boolean predicate. -/
def keep24 (program : RawProgram) : Bool :=
  match parseHour program.start_time with
  | some start_hour => decide (0 ≤ start_hour ∧ start_hour ≤ 23)
  | none => false

/-- A programme of the XMLTV feed of `main.py`, after timezone conversion;
instants are minutes since an epoch, in Mexico City local time. -/
structure XmltvProgram where
  show_name : String
  description : String
  category : String
  start_dt : Int
  end_dt : Int
  logo_url : String
deriving DecidableEq, Repr

/-- One entry of a daily schedule built by `extract_schedule` in `main.py`:
the programme together with its (possibly clamped) displayed start instant. -/
structure DailyEntry where
  prog : XmltvProgram
  display_start : Int
deriving DecidableEq, Repr

/-- The per-day loop of `extract_schedule` in `main.py`: keep a programme when
`p_start <= day_end and p_end >= day_start`, clamping the displayed start to
`day_start` when the programme began before the day. -/
def build_daily_schedule (programs : List XmltvProgram) (day_start day_end : Int) :
    List DailyEntry :=
  match programs with
  | [] => []
  | p :: rest =>
      if p.start_dt ≤ day_end ∧ day_start ≤ p.end_dt then
        { prog := p,
          display_start := if p.start_dt < day_start then day_start else p.start_dt } ::
          build_daily_schedule rest day_start day_end
      else build_daily_schedule rest day_start day_end

/-- The `if daily_schedule:` write guard of `extract_schedule` in `main.py`. -/
def xmltvEmit (daily_schedule : List DailyEntry) : Option (List DailyEntry) :=
  if daily_schedule.isEmpty then none else some daily_schedule

/-- A program that differs only in its (to-be-overwritten) end time. -/
def eraseEnd (p : RawProgram) : RawProgram := { p with end_time := "" }

/-- The start time an end-time anchor contributes: the anchor's start time,
or `""` when there is no anchor. -/
def anchorStart : Option RawProgram → String
  | some q => q.start_time
  | none => ""

/-- A raw program carrying only a show name and a start time, as the concrete
scenarios of the specification do. -/
def mkP (name st : String) : RawProgram := ⟨name, "", "", st, "", ""⟩

/-- The raw list of the specification's midnight-split scenario. -/
def exampleRawList : List RawProgram :=
  [mkP "A" "22:00", mkP "B" "23:00", mkP "C" "00:30", mkP "D" "01:00"]

/-- Concrete relative-day lists realizing the stitching scenario. -/
def c3yList : List RawProgram := [mkP "W" "23:00", mkP "X" "00:15"]

def c3tList : List RawProgram := [mkP "Y" "06:00", mkP "Z" "20:00"]

def c3tmList : List RawProgram := [mkP "Q" "07:00"]

/-- One XMLTV programme spanning a midnight (23:30 of day 1 to 00:30 of
day 2, in minutes from the start of day 1). -/
def c6progs : List XmltvProgram := [⟨"Night", "", "", 1410, 1470, ""⟩]

/-! ## Basic lemmas -/

theorem eraseEnd_set (p : RawProgram) (x : String) :
    eraseEnd { p with end_time := x } = eraseEnd p := rfl

theorem eraseEnd_start (p : RawProgram) : (eraseEnd p).start_time = p.start_time := rfl

/-- `calculate_end_times` rewrites only the `end_time` field. -/
theorem calculate_end_times_map_eraseEnd :
    ∀ (l : List RawProgram) (a : Option RawProgram),
      (calculate_end_times l a).map eraseEnd = l.map eraseEnd
  | [], _ => rfl
  | [p], a => by simp [calculate_end_times, eraseEnd_set]
  | p :: q :: rest, a => by
      have ih := calculate_end_times_map_eraseEnd (q :: rest) a
      show ({ p with end_time := q.start_time } ::
              calculate_end_times (q :: rest) a).map eraseEnd
            = (p :: q :: rest).map eraseEnd
      simp only [List.map_cons, eraseEnd_set]
      exact congrArg _ ih

theorem calculate_end_times_length (l : List RawProgram) (a : Option RawProgram) :
    (calculate_end_times l a).length = l.length := by
  have h := calculate_end_times_map_eraseEnd l a
  have := congrArg List.length h
  simpa using this

theorem calculate_end_times_map_start (l : List RawProgram) (a : Option RawProgram) :
    (calculate_end_times l a).map RawProgram.start_time = l.map RawProgram.start_time := by
  have h := calculate_end_times_map_eraseEnd l a
  have h2 := congrArg (List.map RawProgram.start_time) h
  simpa [Function.comp] using h2

/-- Start times survive end-time synthesis at every position. -/
theorem calculate_end_times_getD_start :
    ∀ (l : List RawProgram) (a : Option RawProgram) (i : Nat) (d : RawProgram),
      i < l.length →
      ((calculate_end_times l a).getD i d).start_time = (l.getD i d).start_time
  | [], _, i, d, h => by simp at h
  | [p], a, 0, d, _ => by simp [calculate_end_times]
  | [p], a, i + 1, d, h => by simp at h
  | p :: q :: rest, a, 0, d, _ => by simp [calculate_end_times]
  | p :: q :: rest, a, i + 1, d, h => by
      simp only [calculate_end_times, List.getD_cons_succ]
      exact calculate_end_times_getD_start (q :: rest) a i d (by simpa using h)

/-- The chaining law: below the last index, the synthesized end time is the
next entry's start time. -/
theorem calculate_end_times_chain :
    ∀ (l : List RawProgram) (a : Option RawProgram) (i : Nat) (d : RawProgram),
      i + 1 < l.length →
      ((calculate_end_times l a).getD i d).end_time = (l.getD (i + 1) d).start_time
  | [], _, i, d, h => by simp at h
  | [p], a, i, d, h => by simp at h
  | p :: q :: rest, a, 0, d, _ => by simp [calculate_end_times]
  | p :: q :: rest, a, i + 1, d, h => by
      simp only [calculate_end_times, List.getD_cons_succ]
      exact calculate_end_times_chain (q :: rest) a i d (by simpa using h)

/-- The last synthesized end time is the anchor's start time (or `""`). -/
theorem calculate_end_times_last :
    ∀ (l : List RawProgram) (a : Option RawProgram) (d : RawProgram),
      l ≠ [] →
      ((calculate_end_times l a).getD (l.length - 1) d).end_time = anchorStart a
  | [], _, _, h => absurd rfl h
  | [p], a, d, _ => by cases a <;> simp [calculate_end_times, anchorStart]
  | p :: q :: rest, a, d, _ => by
      simp only [calculate_end_times, List.length_cons]
      have : (q :: rest).length - 1 + 1 = (q :: rest).length := by simp
      simp only [Nat.add_sub_cancel, List.getD_cons_succ]
      have h2 := calculate_end_times_last (q :: rest) a d (by simp)
      simpa using h2

/-! ## Lemmas on the midnight-crossing split -/

theorem hourDrop_iff_hourLt (a b : RawProgram) : hourDrop a b = true ↔ hourLt a b := by
  cases hp : parseHour a.start_time with
  | none => simp [hourDrop, hourLt, hp]
  | some ph =>
      cases hc : parseHour b.start_time with
      | none => simp [hourDrop, hourLt, hp, hc]
      | some ch => simp [hourDrop, hourLt, hp, hc]

theorem hourDrop_eq_false_iff (a b : RawProgram) : hourDrop a b = false ↔ ¬ hourLt a b := by
  rw [← hourDrop_iff_hourLt]
  cases hourDrop a b <;> simp

theorem findRollover_shift :
    ∀ (t : List RawProgram) (prev : RawProgram) (i : Nat),
      findRollover t prev (i + 1) = findRollover t prev i + 1
  | [], _, _ => rfl
  | curr :: rest, prev, i => by
      by_cases h : hourDrop prev curr
      · simp [findRollover, h]
      · simp only [findRollover, h, Bool.false_eq_true, if_false]
        exact findRollover_shift rest curr (i + 1)

theorem findRollover_ge :
    ∀ (t : List RawProgram) (prev : RawProgram) (i : Nat), i ≤ findRollover t prev i
  | [], _, _ => le_refl _
  | curr :: rest, prev, i => by
      by_cases h : hourDrop prev curr
      · simp [findRollover, h]
      · simp only [findRollover, h, Bool.false_eq_true, if_false]
        exact le_trans (Nat.le_succ i) (findRollover_ge rest curr (i + 1))

/-- The split index marks the first hour drop: no drop occurs inside the taken
prefix, and when the dropped suffix is non-empty, its head drops below the
last entry of the prefix. -/
theorem findRollover_spec :
    ∀ (t : List RawProgram) (prev : RawProgram),
      List.Chain' (fun a b => hourDrop a b = false)
        ((prev :: t).take (findRollover t prev 1)) ∧
      ∀ b ∈ ((prev :: t).drop (findRollover t prev 1)).head?,
        ∃ a ∈ ((prev :: t).take (findRollover t prev 1)).getLast?, hourDrop a b = true
  | [], prev => by
      constructor
      · simp [findRollover, List.chain'_singleton]
      · simp [findRollover]
  | curr :: rest, prev => by
      by_cases h : hourDrop prev curr
      · constructor
        · simp [findRollover, h, List.chain'_singleton]
        · intro b hb
          simp only [findRollover, h, if_true, List.drop_succ_cons, List.drop_zero,
            List.head?_cons, Option.mem_def, Option.some.injEq] at hb
          subst hb
          refine ⟨prev, ?_, h⟩
          simp [findRollover, h]
      · have hk := findRollover_ge rest curr 1
        obtain ⟨m, hm⟩ : ∃ m, findRollover rest curr 1 = m + 1 :=
          ⟨findRollover rest curr 1 - 1, (Nat.succ_pred_eq_of_pos hk).symm⟩
        have ih := findRollover_spec rest curr
        have hstep : findRollover (curr :: rest) prev 1 = findRollover rest curr 1 + 1 := by
          simp only [findRollover, h, Bool.false_eq_true, if_false]
          exact findRollover_shift rest curr 1
        rw [hstep, hm]
        rw [hm] at ih
        constructor
        · have htake : (prev :: curr :: rest).take (m + 1 + 1)
              = prev :: (curr :: rest).take (m + 1) := rfl
          rw [htake]
          simp only [List.take_succ_cons]
          refine List.chain'_cons.mpr ⟨by simpa using h, ?_⟩
          simpa [List.take_succ_cons] using ih.1
        · intro b hb
          have hdrop : (prev :: curr :: rest).drop (m + 1 + 1)
              = (curr :: rest).drop (m + 1) := rfl
          rw [hdrop] at hb
          obtain ⟨a, ha, hab⟩ := ih.2 b hb
          refine ⟨a, ?_, hab⟩
          have htake : (prev :: curr :: rest).take (m + 1 + 1)
              = prev :: (curr :: rest).take (m + 1) := rfl
          rw [htake]
          simp only [List.take_succ_cons]
          rw [List.getLast?_cons_cons]
          simpa [List.take_succ_cons] using ha

/-- Full characterization of `split_schedule_at_midnight`: it is a partition
of its input whose first part contains no hour drop and whose second part, if
any, begins with the first hour drop. -/
theorem split_schedule_char (l : List RawProgram) :
    (split_schedule_at_midnight l).1 ++ (split_schedule_at_midnight l).2 = l ∧
    List.Chain' (fun a b => hourDrop a b = false) (split_schedule_at_midnight l).1 ∧
    ∀ b ∈ (split_schedule_at_midnight l).2.head?,
      ∃ a ∈ (split_schedule_at_midnight l).1.getLast?, hourDrop a b = true := by
  cases l with
  | nil => simp [split_schedule_at_midnight]
  | cons h t =>
      refine ⟨?_, (findRollover_spec t h).1, (findRollover_spec t h).2⟩
      simp [split_schedule_at_midnight]

/-! ## Congruence lemmas: the pipeline reads nothing but start times and the
fields it copies verbatim, so incoming `end_time` values are irrelevant. -/

theorem setEnd_congr {p p' : RawProgram} (h : eraseEnd p = eraseEnd p') (x : String) :
    ({ p with end_time := x } : RawProgram) = { p' with end_time := x } := by
  cases p; cases p'
  simp only [eraseEnd, RawProgram.mk.injEq] at h ⊢
  simp_all

theorem eraseEnd_eq_start {p p' : RawProgram} (h : eraseEnd p = eraseEnd p') :
    p.start_time = p'.start_time := by
  have h2 := congrArg RawProgram.start_time h
  exact h2

theorem hourDrop_congr {a a' b b' : RawProgram}
    (ha : a.start_time = a'.start_time) (hb : b.start_time = b'.start_time) :
    hourDrop a b = hourDrop a' b' := by
  unfold hourDrop
  rw [ha, hb]

theorem findRollover_congr :
    ∀ (t t' : List RawProgram) (prev prev' : RawProgram),
      t.map eraseEnd = t'.map eraseEnd → eraseEnd prev = eraseEnd prev' →
      ∀ i, findRollover t prev i = findRollover t' prev' i
  | [], [], _, _, _, _, _ => rfl
  | [], _ :: _, _, _, h, _, _ => by simp at h
  | _ :: _, [], _, _, h, _, _ => by simp at h
  | c :: r, c' :: r', prev, prev', h, hp, i => by
      simp only [List.map_cons, List.cons.injEq] at h
      have hd : hourDrop prev c = hourDrop prev' c' :=
        hourDrop_congr (eraseEnd_eq_start hp) (eraseEnd_eq_start h.1)
      simp only [findRollover, hd]
      by_cases hx : hourDrop prev' c'
      · simp [hx]
      · simp only [hx, Bool.false_eq_true, if_false]
        exact findRollover_congr r r' c c' h.2 h.1 (i + 1)

theorem split_congr {l l' : List RawProgram} (h : l.map eraseEnd = l'.map eraseEnd) :
    (split_schedule_at_midnight l).1.map eraseEnd
        = (split_schedule_at_midnight l').1.map eraseEnd ∧
    (split_schedule_at_midnight l).2.map eraseEnd
        = (split_schedule_at_midnight l').2.map eraseEnd := by
  cases l with
  | nil =>
      cases l' with
      | nil => exact ⟨rfl, rfl⟩
      | cons a' t' => simp at h
  | cons a t =>
      cases l' with
      | nil => simp at h
      | cons a' t' =>
          have h' := h
          simp only [List.map_cons, List.cons.injEq] at h'
          have hk : findRollover t a 1 = findRollover t' a' 1 :=
            findRollover_congr t t' a a' h'.2 h'.1 1
          constructor
          · show ((a :: t).take (findRollover t a 1)).map eraseEnd
                = ((a' :: t').take (findRollover t' a' 1)).map eraseEnd
            rw [List.map_take, List.map_take, hk, h]
          · show ((a :: t).drop (findRollover t a 1)).map eraseEnd
                = ((a' :: t').drop (findRollover t' a' 1)).map eraseEnd
            rw [List.map_drop, List.map_drop, hk, h]

theorem calculate_end_times_singleton (p : RawProgram) (a : Option RawProgram) :
    calculate_end_times [p] a = [{ p with end_time := anchorStart a }] := by
  cases a <;> rfl

theorem calc_congr :
    ∀ (l l' : List RawProgram) (a a' : Option RawProgram),
      l.map eraseEnd = l'.map eraseEnd → anchorStart a = anchorStart a' →
      calculate_end_times l a = calculate_end_times l' a'
  | [], [], _, _, _, _ => rfl
  | [], _ :: _, _, _, h, _ => by simp at h
  | _ :: _, [], _, _, h, _ => by simp at h
  | [p], [p'], a, a', h, ha => by
      simp only [List.map_cons, List.map_nil, List.cons.injEq, and_true] at h
      rw [calculate_end_times_singleton, calculate_end_times_singleton, ha]
      exact congrArg (fun z => [z]) (setEnd_congr h (anchorStart a'))
  | [p], p' :: q' :: r', _, _, h, _ => by simp at h
  | p :: q :: r, [p'], _, _, h, _ => by simp at h
  | p :: q :: r, p' :: q' :: r', a, a', h, ha => by
      simp only [List.map_cons, List.cons.injEq] at h
      show { p with end_time := q.start_time } :: calculate_end_times (q :: r) a
          = { p' with end_time := q'.start_time } :: calculate_end_times (q' :: r') a'
      have hq : q.start_time = q'.start_time := eraseEnd_eq_start h.2.1
      rw [hq, setEnd_congr h.1]
      exact congrArg _
        (calc_congr (q :: r) (q' :: r') a a' (by simp [h.2.1, h.2.2]) ha)

theorem anchor_head_congr {l l' : List RawProgram}
    (h : l.map eraseEnd = l'.map eraseEnd) :
    anchorStart l.head? = anchorStart l'.head? := by
  cases l with
  | nil =>
      cases l' with
      | nil => rfl
      | cons a' t' => simp at h
  | cons a t =>
      cases l' with
      | nil => simp at h
      | cons a' t' =>
          simp only [List.map_cons, List.cons.injEq] at h
          simpa [anchorStart] using eraseEnd_eq_start h.1

/-- The whole per-channel assembly ignores incoming `end_time` values. -/
theorem assemble_congr {ly ly' lt lt' ltm ltm' : List RawProgram}
    (hy : ly.map eraseEnd = ly'.map eraseEnd)
    (ht : lt.map eraseEnd = lt'.map eraseEnd)
    (htm : ltm.map eraseEnd = ltm'.map eraseEnd) :
    assemble ly lt ltm = assemble ly' lt' ltm' := by
  have hsy := split_congr hy
  have hst := split_congr ht
  have hstm := split_congr htm
  have hft : ((split_schedule_at_midnight ly).2 ++ (split_schedule_at_midnight lt).1).map eraseEnd
      = ((split_schedule_at_midnight ly').2 ++ (split_schedule_at_midnight lt').1).map eraseEnd := by
    simp [hsy.2, hst.1]
  have hftm : ((split_schedule_at_midnight lt).2 ++ (split_schedule_at_midnight ltm).1).map eraseEnd
      = ((split_schedule_at_midnight lt').2 ++ (split_schedule_at_midnight ltm').1).map eraseEnd := by
    simp [hst.2, hstm.1]
  show (calculate_end_times
          ((split_schedule_at_midnight ly).2 ++ (split_schedule_at_midnight lt).1)
          ((split_schedule_at_midnight lt).2 ++ (split_schedule_at_midnight ltm).1).head?,
        calculate_end_times
          ((split_schedule_at_midnight lt).2 ++ (split_schedule_at_midnight ltm).1) none)
      = (calculate_end_times
          ((split_schedule_at_midnight ly').2 ++ (split_schedule_at_midnight lt').1)
          ((split_schedule_at_midnight lt').2 ++ (split_schedule_at_midnight ltm').1).head?,
        calculate_end_times
          ((split_schedule_at_midnight lt').2 ++ (split_schedule_at_midnight ltm').1) none)
  exact congrArg₂ Prod.mk
    (calc_congr _ _ _ _ hft (anchor_head_congr hftm))
    (calc_congr _ _ _ _ hftm rfl)

/-! ## Sorting and filtering lemmas -/

theorem sorted_map_start_iff (l : List RawProgram) :
    List.Sorted startLE l ↔ List.Sorted (· ≤ ·) (l.map RawProgram.start_time) := by
  unfold List.Sorted startLE
  exact List.pairwise_map.symm

theorem sorted_calculate_end_times {l : List RawProgram} {a : Option RawProgram}
    (h : List.Sorted startLE l) : List.Sorted startLE (calculate_end_times l a) := by
  rw [sorted_map_start_iff] at h ⊢
  rwa [calculate_end_times_map_start]

/-- The end-time loop of `parse_schedule` is `calculate_end_times` with a
`"23:59"`-anchored phantom successor. -/
theorem scraperEndTimes_eq :
    ∀ l : List RawProgram, scraperEndTimes l = calculate_end_times l (some (mkP "" "23:59"))
  | [] => rfl
  | [_] => rfl
  | p :: q :: rest => by
      show { p with end_time := q.start_time } :: scraperEndTimes (q :: rest)
          = { p with end_time := q.start_time }
              :: calculate_end_times (q :: rest) (some (mkP "" "23:59"))
      exact congrArg _ (scraperEndTimes_eq (q :: rest))

theorem filter24_eq_filter :
    ∀ l : List RawProgram, filter_24hour_schedule l = l.filter keep24
  | [] => rfl
  | p :: rest => by
      have ih := filter24_eq_filter rest
      cases hp : parseHour p.start_time with
      | none => simp [filter_24hour_schedule, List.filter_cons, keep24, hp, ih]
      | some h =>
          by_cases hin : 0 ≤ h ∧ h ≤ 23
          · simp [filter_24hour_schedule, List.filter_cons, keep24, hp, hin, ih]
          · simp [filter_24hour_schedule, List.filter_cons, keep24, hp, hin, ih]

theorem build_daily_eq :
    ∀ (programs : List XmltvProgram) (day_start day_end : Int),
      build_daily_schedule programs day_start day_end =
        (programs.filter fun p => decide (p.start_dt ≤ day_end ∧ day_start ≤ p.end_dt)).map
          fun p =>
            { prog := p,
              display_start := if p.start_dt < day_start then day_start else p.start_dt }
  | [], _, _ => rfl
  | p :: rest, ds, de => by
      have ih := build_daily_eq rest ds de
      by_cases hin : p.start_dt ≤ de ∧ ds ≤ p.end_dt
      · simp [build_daily_schedule, List.filter_cons, hin, ih]
      · simp [build_daily_schedule, List.filter_cons, hin, ih]


/-! ## Derived end-time lemmas and the assembly equation -/

theorem calculate_end_times_chain_self (l : List RawProgram) (a : Option RawProgram)
    (i : Nat) (d : RawProgram) (h : i + 1 < (calculate_end_times l a).length) :
    ((calculate_end_times l a).getD i d).end_time
      = ((calculate_end_times l a).getD (i + 1) d).start_time := by
  have hl : i + 1 < l.length := by rwa [calculate_end_times_length] at h
  rw [calculate_end_times_chain l a i d hl,
    calculate_end_times_getD_start l a (i + 1) d hl]

theorem calculate_end_times_last_self (l : List RawProgram) (a : Option RawProgram)
    (d : RawProgram) (h : calculate_end_times l a ≠ []) :
    ((calculate_end_times l a).getD ((calculate_end_times l a).length - 1) d).end_time
      = anchorStart a := by
  have hl : l ≠ [] := by
    intro he
    subst he
    exact h rfl
  rw [calculate_end_times_length]
  exact calculate_end_times_last l a d hl

/-- Unfolding of `assemble` to the two synthesized calendar-day lists. -/
theorem assemble_eq (ly lt ltm : List RawProgram) :
    assemble ly lt ltm =
      (calculate_end_times
          ((split_schedule_at_midnight ly).2 ++ (split_schedule_at_midnight lt).1)
          ((split_schedule_at_midnight lt).2 ++ (split_schedule_at_midnight ltm).1).head?,
       calculate_end_times
          ((split_schedule_at_midnight lt).2 ++ (split_schedule_at_midnight ltm).1)
          none) := rfl

theorem parse_schedule_post_eq (programs : List RawProgram) :
    parse_schedule_post programs
      = calculate_end_times (sortByStart programs) (some (mkP "" "23:59")) :=
  scraperEndTimes_eq _

/-! ## Claims -/

/-- C1: `split_schedule_at_midnight` divides every raw list at the first index
`i ≥ 1` whose hour drops below the previous entry's hour: the two returned
parts partition the list, no hour drop occurs between consecutive entries of
the pre-midnight part, and when the post-midnight part is non-empty its first
entry's hour drops below the hour of the last pre-midnight entry (so the cut
is exactly the first drop). When no drop exists — in particular for the empty
list — the whole list is the pre-midnight part and the post-midnight part is
empty. The specification's concrete scenario splits as `[A,B] / [C,D]`. -/
theorem claim_C1_midnight_split :
    (∀ l : List RawProgram,
      (split_schedule_at_midnight l).1 ++ (split_schedule_at_midnight l).2 = l ∧
      List.Chain' (fun a b => ¬ hourLt a b) (split_schedule_at_midnight l).1 ∧
      (∀ b ∈ (split_schedule_at_midnight l).2.head?,
        ∃ a ∈ (split_schedule_at_midnight l).1.getLast?, hourLt a b)) ∧
    split_schedule_at_midnight [] = ([], []) ∧
    split_schedule_at_midnight exampleRawList
      = ([mkP "A" "22:00", mkP "B" "23:00"], [mkP "C" "00:30", mkP "D" "01:00"]) := by
  refine ⟨fun l => ?_, rfl, by decide⟩
  obtain ⟨h1, h2, h3⟩ := split_schedule_char l
  refine ⟨h1, ?_, ?_⟩
  · refine h2.imp ?_
    intro a b hab
    exact (hourDrop_eq_false_iff a b).mp hab
  · intro b hb
    obtain ⟨a, ha, hab⟩ := h3 b hb
    exact ⟨a, ha, (hourDrop_iff_hourLt a b).mp hab⟩

/-- Witness for C1: the first-drop characterization applied to the
specification's concrete list, at the head of its post-midnight part. -/
theorem claim_C1_midnight_split_witness :
    (mkP "C" "00:30") ∈ (split_schedule_at_midnight exampleRawList).2.head? ∧
    (∃ a ∈ (split_schedule_at_midnight exampleRawList).1.getLast?,
      hourLt a (mkP "C" "00:30")) :=
  ⟨by decide,
   (claim_C1_midnight_split.1 exampleRawList).2.2 (mkP "C" "00:30") (by decide)⟩

/-- C10: the midnight-crossing split is a partition of its input — the
pre-midnight part followed by the post-midnight part is the original list, for
every input, including lists with unparseable start times. -/
theorem claim_C10_split_partition (l : List RawProgram) :
    (split_schedule_at_midnight l).1 ++ (split_schedule_at_midnight l).2 = l := by
  cases l with
  | nil => rfl
  | cons h t =>
      show (h :: t).take (findRollover t h 1) ++ (h :: t).drop (findRollover t h 1) = h :: t
      exact List.take_append_drop _ _

/-- C2: the assembled today schedule is the post-midnight part of the
yesterday list followed by the pre-midnight part of the today list, and the
assembled tomorrow schedule is the post-midnight part of the today list
followed by the pre-midnight part of the tomorrow list — equality of every
field except `end_time`, which the subsequent synthesis pass overwrites. -/
theorem claim_C2_stitching (ly lt ltm : List RawProgram) :
    ((assemble ly lt ltm).1).map eraseEnd
      = (((split_schedule_at_midnight ly).2 ++ (split_schedule_at_midnight lt).1)).map
          eraseEnd ∧
    ((assemble ly lt ltm).2).map eraseEnd
      = (((split_schedule_at_midnight lt).2 ++ (split_schedule_at_midnight ltm).1)).map
          eraseEnd := by
  rw [assemble_eq]
  exact ⟨calculate_end_times_map_eraseEnd _ _, calculate_end_times_map_eraseEnd _ _⟩

/-- C3: in every produced per-day schedule, each entry's end time equals the
next entry's start time; the last entry of the assembled today schedule ends
at the start time of the first program of the assembled tomorrow schedule
when that list is non-empty and at the fallback `""` otherwise (that is what
`anchorStart ∘ List.head?` computes); the assembled tomorrow schedule — which
has no next-day list — falls back to `""`, and `parse_schedule` of
`scraper.py` uses the sentinel `"23:59"`. The rule is uniform in the list
length, so it covers single-program days. -/
theorem claim_C3_end_time_chaining :
    (∀ (ly lt ltm : List RawProgram) (i : Nat) (d : RawProgram),
      i + 1 < (assemble ly lt ltm).1.length →
      (((assemble ly lt ltm).1).getD i d).end_time
        = (((assemble ly lt ltm).1).getD (i + 1) d).start_time) ∧
    (∀ (ly lt ltm : List RawProgram) (d : RawProgram),
      (assemble ly lt ltm).1 ≠ [] →
      (((assemble ly lt ltm).1).getD ((assemble ly lt ltm).1.length - 1) d).end_time
        = anchorStart ((assemble ly lt ltm).2.head?)) ∧
    (∀ (ly lt ltm : List RawProgram) (i : Nat) (d : RawProgram),
      i + 1 < (assemble ly lt ltm).2.length →
      (((assemble ly lt ltm).2).getD i d).end_time
        = (((assemble ly lt ltm).2).getD (i + 1) d).start_time) ∧
    (∀ (ly lt ltm : List RawProgram) (d : RawProgram),
      (assemble ly lt ltm).2 ≠ [] →
      (((assemble ly lt ltm).2).getD ((assemble ly lt ltm).2.length - 1) d).end_time
        = "") ∧
    (∀ (programs : List RawProgram) (i : Nat) (d : RawProgram),
      i + 1 < (parse_schedule_post programs).length →
      ((parse_schedule_post programs).getD i d).end_time
        = ((parse_schedule_post programs).getD (i + 1) d).start_time) ∧
    (∀ (programs : List RawProgram) (d : RawProgram),
      parse_schedule_post programs ≠ [] →
      ((parse_schedule_post programs).getD
          ((parse_schedule_post programs).length - 1) d).end_time
        = "23:59") := by
  refine ⟨?_, ?_, ?_, ?_, ?_, ?_⟩
  · intro ly lt ltm i d h
    rw [assemble_eq] at h ⊢
    exact calculate_end_times_chain_self _ _ i d h
  · intro ly lt ltm d h
    rw [assemble_eq] at h ⊢
    rw [anchor_head_congr (calculate_end_times_map_eraseEnd
      ((split_schedule_at_midnight lt).2 ++ (split_schedule_at_midnight ltm).1) none)]
    exact calculate_end_times_last_self _ _ d h
  · intro ly lt ltm i d h
    rw [assemble_eq] at h ⊢
    exact calculate_end_times_chain_self _ _ i d h
  · intro ly lt ltm d h
    rw [assemble_eq] at h ⊢
    exact calculate_end_times_last_self _ none d h
  · intro programs i d h
    rw [parse_schedule_post_eq] at h ⊢
    exact calculate_end_times_chain_self _ _ i d h
  · intro programs d h
    rw [parse_schedule_post_eq] at h ⊢
    exact calculate_end_times_last_self _ _ d h

/-- Witness for C3: chaining and last-entry rule evaluated on the stitching
scenario (today `[X 00:15, Y 06:00, Z 20:00]`, tomorrow `[Q 07:00]`) and on a
two-program `parse_schedule` input. -/
theorem claim_C3_end_time_chaining_witness :
    (0 + 1 < (assemble c3yList c3tList c3tmList).1.length ∧
      (((assemble c3yList c3tList c3tmList).1).getD 0 default).end_time
        = (((assemble c3yList c3tList c3tmList).1).getD 1 default).start_time) ∧
    ((assemble c3yList c3tList c3tmList).1 ≠ [] ∧
      (((assemble c3yList c3tList c3tmList).1).getD
          ((assemble c3yList c3tList c3tmList).1.length - 1) default).end_time
        = anchorStart ((assemble c3yList c3tList c3tmList).2.head?)) ∧
    (parse_schedule_post [mkP "R" "09:00"] ≠ [] ∧
      ((parse_schedule_post [mkP "R" "09:00"]).getD
          ((parse_schedule_post [mkP "R" "09:00"]).length - 1)
          default).end_time
        = "23:59") :=
  ⟨⟨by decide,
    claim_C3_end_time_chaining.1 c3yList c3tList c3tmList 0 default (by decide)⟩,
   ⟨by decide,
    claim_C3_end_time_chaining.2.1 c3yList c3tList c3tmList default (by decide)⟩,
   ⟨by decide,
    claim_C3_end_time_chaining.2.2.2.2.2 [mkP "R" "09:00"] default
      (by decide)⟩⟩

/-- C4 counterexample: the stitched strategy does not sort. With the
chronologically plausible relative-day inputs
today `[A 23:00, B 00:30, C 06:30]` (overlapping into the next morning) and
tomorrow `[D 06:00]`, the assembled tomorrow schedule is
`[B 00:30, C 06:30, D 06:00]`, which is not ascending in `start_time`. -/
theorem claim_C4_counterexample_unsorted :
    ¬ List.Sorted startLE
        ((assemble [] [mkP "A" "23:00", mkP "B" "00:30", mkP "C" "06:30"]
            [mkP "D" "06:00"]).2) := by
  intro h
  have hTM : (assemble [] [mkP "A" "23:00", mkP "B" "00:30", mkP "C" "06:30"]
        [mkP "D" "06:00"]).2
      = [⟨"B", "", "", "00:30", "06:30", ""⟩, ⟨"C", "", "", "06:30", "06:00", ""⟩,
         ⟨"D", "", "", "06:00", "", ""⟩] := by decide
  rw [hTM] at h
  have h2 := List.rel_of_sorted_cons (List.sorted_cons.mp h).2
    (⟨"D", "", "", "06:00", "", ""⟩ : RawProgram) (by simp)
  have h3 : ("06:30" : String) ≤ "06:00" := h2
  rw [String.le_iff_toList_le] at h3
  revert h3
  decide

/-- C4 amended: the sort invariant holds for the strategies that sort —
`parse_schedule` of `scraper.py` sorts before chaining, unconditionally — while
the stitched yesterday/today/tomorrow strategy merely preserves the order of
the stitched parts, so its output is sorted exactly when the concatenation of
the split parts it stitches is already sorted. -/
theorem claim_C4_amended_sortedness :
    (∀ programs : List RawProgram, List.Sorted startLE (parse_schedule_post programs)) ∧
    (∀ ly lt ltm : List RawProgram,
      List.Sorted startLE
        ((split_schedule_at_midnight ly).2 ++ (split_schedule_at_midnight lt).1) →
      List.Sorted startLE ((assemble ly lt ltm).1)) ∧
    (∀ ly lt ltm : List RawProgram,
      List.Sorted startLE
        ((split_schedule_at_midnight lt).2 ++ (split_schedule_at_midnight ltm).1) →
      List.Sorted startLE ((assemble ly lt ltm).2)) := by
  refine ⟨fun programs => ?_, fun ly lt ltm h => ?_, fun ly lt ltm h => ?_⟩
  · rw [parse_schedule_post_eq]
    exact sorted_calculate_end_times (List.sorted_insertionSort startLE programs)
  · rw [assemble_eq]
    exact sorted_calculate_end_times h
  · rw [assemble_eq]
    exact sorted_calculate_end_times h

/-- Witness for the amended C4: a sorted stitched input yields a sorted
assembled schedule. -/
theorem claim_C4_amended_sortedness_witness :
    List.Sorted startLE
      ((split_schedule_at_midnight ([] : List RawProgram)).2
        ++ (split_schedule_at_midnight [mkP "A" "06:00"]).1) ∧
    List.Sorted startLE ((assemble [] [mkP "A" "06:00"] []).1) :=
  ⟨by decide, claim_C4_amended_sortedness.2.1 [] [mkP "A" "06:00"] [] (by decide)⟩

/-- C5 counterexample: nothing deduplicates start times. Two raw today
entries sharing `start_time = "10:00"` both survive assembly, and the
resulting `ChannelSchedule` is emitted with the duplicate key. -/
theorem claim_C5_counterexample_duplicate_starts :
    ((assemble [] [mkP "A" "10:00", mkP "B" "10:00"] []).1.map RawProgram.start_time
      = ["10:00", "10:00"]) ∧
    ¬ ((assemble [] [mkP "A" "10:00", mkP "B" "10:00"] []).1.map
        RawProgram.start_time).Nodup ∧
    (mainOutputs "ch" "01/01/2026" "02/01/2026" []
        [mkP "A" "10:00", mkP "B" "10:00"] []).1.isSome = true :=
  ⟨by decide, by decide, by decide⟩

/-- C5 amended: assembly reproduces the stitched start-time sequence exactly
(it neither drops nor adds keys), so the produced schedule has pairwise
distinct start times precisely when the stitched raw parts do; no
deduplication is performed by the code. -/
theorem claim_C5_amended_distinct_starts :
    (∀ ly lt ltm : List RawProgram,
      (assemble ly lt ltm).1.map RawProgram.start_time
        = ((split_schedule_at_midnight ly).2 ++ (split_schedule_at_midnight lt).1).map
            RawProgram.start_time ∧
      (assemble ly lt ltm).2.map RawProgram.start_time
        = ((split_schedule_at_midnight lt).2 ++ (split_schedule_at_midnight ltm).1).map
            RawProgram.start_time) ∧
    (∀ ly lt ltm : List RawProgram,
      (((split_schedule_at_midnight ly).2 ++ (split_schedule_at_midnight lt).1).map
          RawProgram.start_time).Nodup →
      ((assemble ly lt ltm).1.map RawProgram.start_time).Nodup) ∧
    (∀ ly lt ltm : List RawProgram,
      (((split_schedule_at_midnight lt).2 ++ (split_schedule_at_midnight ltm).1).map
          RawProgram.start_time).Nodup →
      ((assemble ly lt ltm).2.map RawProgram.start_time).Nodup) := by
  have hmap : ∀ ly lt ltm : List RawProgram,
      (assemble ly lt ltm).1.map RawProgram.start_time
        = ((split_schedule_at_midnight ly).2 ++ (split_schedule_at_midnight lt).1).map
            RawProgram.start_time ∧
      (assemble ly lt ltm).2.map RawProgram.start_time
        = ((split_schedule_at_midnight lt).2 ++ (split_schedule_at_midnight ltm).1).map
            RawProgram.start_time := by
    intro ly lt ltm
    rw [assemble_eq]
    exact ⟨calculate_end_times_map_start _ _, calculate_end_times_map_start _ _⟩
  refine ⟨hmap, fun ly lt ltm h => ?_, fun ly lt ltm h => ?_⟩
  · rw [(hmap ly lt ltm).1]
    exact h
  · rw [(hmap ly lt ltm).2]
    exact h

/-- Witness for the amended C5: distinct stitched start times give a
duplicate-free assembled schedule. -/
theorem claim_C5_amended_distinct_starts_witness :
    ((((split_schedule_at_midnight ([] : List RawProgram)).2
        ++ (split_schedule_at_midnight [mkP "A" "10:00", mkP "B" "11:00"]).1).map
          RawProgram.start_time).Nodup) ∧
    (((assemble [] [mkP "A" "10:00", mkP "B" "11:00"] []).1.map
        RawProgram.start_time).Nodup) :=
  ⟨by decide,
   claim_C5_amended_distinct_starts.2.1 [] [mkP "A" "10:00", mkP "B" "11:00"] []
     (by decide)⟩

/-- C6: in the XMLTV strategy a programme appears in a day's schedule exactly
when its start instant is at most the day's end and its end instant is at
least the day's start; an entry whose programme started strictly before the
day displays the day's start instant, and one starting within the day
displays its own start instant. -/
theorem claim_C6_interval_overlap :
    ∀ (programs : List XmltvProgram) (day_start day_end : Int),
      (∀ p : XmltvProgram,
        (∃ e ∈ build_daily_schedule programs day_start day_end, e.prog = p)
          ↔ (p ∈ programs ∧ p.start_dt ≤ day_end ∧ day_start ≤ p.end_dt)) ∧
      (∀ e ∈ build_daily_schedule programs day_start day_end,
        (e.prog.start_dt < day_start → e.display_start = day_start) ∧
        (day_start ≤ e.prog.start_dt → e.display_start = e.prog.start_dt)) := by
  intro programs ds de
  constructor
  · intro p
    rw [build_daily_eq]
    constructor
    · rintro ⟨e, he, hp⟩
      obtain ⟨b, hb, rfl⟩ := List.mem_map.mp he
      have hb' := List.mem_filter.mp hb
      have hbp : b = p := hp
      subst hbp
      refine ⟨hb'.1, ?_⟩
      simpa using hb'.2
    · rintro ⟨hmem, h1, h2⟩
      refine ⟨⟨p, if p.start_dt < ds then ds else p.start_dt⟩, ?_, rfl⟩
      exact List.mem_map_of_mem _ (List.mem_filter.mpr ⟨hmem, by simp [h1, h2]⟩)
  · intro e he
    rw [build_daily_eq] at he
    simp only [List.mem_map, List.mem_filter] at he
    obtain ⟨b, ⟨hbmem, hbq⟩, rfl⟩ := he
    constructor
    · intro h
      show (if b.start_dt < ds then ds else b.start_dt) = ds
      rw [if_pos h]
    · intro h
      show (if b.start_dt < ds then ds else b.start_dt) = b.start_dt
      rw [if_neg (not_lt.mpr h)]

/-- Witness for C6: the programme spanning 23:30–00:30 across the boundary of
day 2 (day window `[1440, 2879]` minutes) is kept in day 2's schedule with
its displayed start clamped to the day's start. -/
theorem claim_C6_interval_overlap_witness :
    ((⟨⟨"Night", "", "", 1410, 1470, ""⟩, 1440⟩ : DailyEntry)
        ∈ build_daily_schedule c6progs 1440 2879) ∧
    (⟨⟨"Night", "", "", 1410, 1470, ""⟩, 1440⟩ : DailyEntry).display_start = 1440 :=
  ⟨by decide,
   ((claim_C6_interval_overlap c6progs 1440 2879).2
      ⟨⟨"Night", "", "", 1410, 1470, ""⟩, 1440⟩ (by decide)).1 (by decide)⟩

/-- C7: a day's `ChannelSchedule` is emitted exactly when its assembled list
is non-empty (both in `epg_scraper.py`'s `main` and in `main.py`'s write
guard), and with all three relative fetches empty nothing is emitted for
either day; the assembly is a total function, so no exception arises. -/
theorem claim_C7_emission :
    (∀ (cn d1 d2 : String) (ly lt ltm : List RawProgram),
      ((mainOutputs cn d1 d2 ly lt ltm).1.isSome ↔ (assemble ly lt ltm).1 ≠ []) ∧
      ((mainOutputs cn d1 d2 ly lt ltm).2.isSome ↔ (assemble ly lt ltm).2 ≠ [])) ∧
    (∀ cn d1 d2 : String, mainOutputs cn d1 d2 [] [] [] = (none, none)) ∧
    (∀ ds : List DailyEntry, (xmltvEmit ds).isSome ↔ ds ≠ []) := by
  refine ⟨fun cn d1 d2 ly lt ltm => ⟨?_, ?_⟩, fun cn d1 d2 => rfl, fun ds => ?_⟩
  · by_cases h : (assemble ly lt ltm).1 = [] <;> simp [mainOutputs, emitDay, h]
  · by_cases h : (assemble ly lt ltm).2 = [] <;> simp [mainOutputs, emitDay, h]
  · by_cases h : ds = [] <;> simp [xmltvEmit, h]

/-- Witness for C7: a non-empty today list produces a today file. -/
theorem claim_C7_emission_witness :
    (assemble [] [mkP "A" "10:00"] []).1 ≠ [] ∧
    (mainOutputs "c" "d1" "d2" [] [mkP "A" "10:00"] []).1.isSome :=
  ⟨by decide,
   ((claim_C7_emission.1 "c" "d1" "d2" [] [mkP "A" "10:00"] []).1).mpr (by decide)⟩

/-- C8: the assembly pipeline is a deterministic function of the fields it
reads — two inputs that agree on everything except the (always overwritten)
`end_time` field produce identical per-channel output. In particular
re-running on the very lists mutated by a previous run, whose only difference
is their filled-in `end_time`s, reproduces the output byte for byte. -/
theorem claim_C8_deterministic
    (cn d1 d2 : String) (ly ly' lt lt' ltm ltm' : List RawProgram)
    (hy : ly.map eraseEnd = ly'.map eraseEnd)
    (ht : lt.map eraseEnd = lt'.map eraseEnd)
    (htm : ltm.map eraseEnd = ltm'.map eraseEnd) :
    mainOutputs cn d1 d2 ly lt ltm = mainOutputs cn d1 d2 ly' lt' ltm' := by
  unfold mainOutputs
  rw [assemble_congr hy ht htm]

/-- Witness for C8: inputs differing only in a pre-filled `end_time` yield
identical output. -/
theorem claim_C8_deterministic_witness :
    (([⟨"A", "", "", "10:00", "23:00", "d"⟩] : List RawProgram).map eraseEnd
      = ([⟨"A", "", "", "10:00", "", "d"⟩] : List RawProgram).map eraseEnd) ∧
    mainOutputs "c" "d1" "d2" [] [⟨"A", "", "", "10:00", "23:00", "d"⟩] []
      = mainOutputs "c" "d1" "d2" [] [⟨"A", "", "", "10:00", "", "d"⟩] [] :=
  ⟨by decide,
   claim_C8_deterministic "c" "d1" "d2" [] [] [⟨"A", "", "", "10:00", "23:00", "d"⟩]
     [⟨"A", "", "", "10:00", "", "d"⟩] [] [] (by decide) (by decide) (by decide)⟩

/-- C9: `filter_24hour_schedule` retains exactly the entries whose start hour
parses to a value in `0..23`, preserves relative order (its output is a
sublist of its input), and discards entries whose start hour fails to parse. -/
theorem claim_C9_window_filter :
    ∀ programs : List RawProgram,
      filter_24hour_schedule programs = programs.filter keep24 ∧
      (filter_24hour_schedule programs).Sublist programs ∧
      (∀ p : RawProgram,
        p ∈ filter_24hour_schedule programs ↔ p ∈ programs ∧ keep24 p = true) ∧
      (∀ p : RawProgram,
        keep24 p = true ↔ ∃ h, parseHour p.start_time = some h ∧ 0 ≤ h ∧ h ≤ 23) := by
  intro programs
  refine ⟨filter24_eq_filter programs, ?_, ?_, ?_⟩
  · rw [filter24_eq_filter]
    exact List.filter_sublist _
  · intro p
    rw [filter24_eq_filter]
    simp [List.mem_filter]
  · intro p
    cases hp : parseHour p.start_time with
    | none => simp [keep24, hp]
    | some h => simp [keep24, hp]
